import Mathlib

/-!
Shallow embedding of selected parts of the langchain repository, together
with theorems checking the natural-language specification against the code.

Python strings are modelled as `List Char` (or Lean `String` where only
whole-string equality matters), Python dicts as association lists, and
fallible Python code as `Except`/`Option` values.
-/

set_option maxRecDepth 4096

/-! ## Basic Python string primitives -/

/-- Python whitespace class used by `str.strip()` and by `re`'s `\s`
(restricted to the ASCII range; the texts in this development stay ASCII). -/
def isPySpace (c : Char) : Bool :=
  c == ' ' || c == '\t' || c == '\n' || c == '\r' || c == '\x0b' || c == '\x0c'

/-- Match a literal pattern at the head of a character list, returning the
remaining suffix (the semantics of `str.startswith` plus consumption). -/
def dropLit : List Char → List Char → Option (List Char)
  | [], s => some s
  | _ :: _, [] => none
  | p :: ps, c :: cs => if p == c then dropLit ps cs else none

theorem dropLit_length_le : ∀ (p s t : List Char), dropLit p s = some t → t.length ≤ s.length
  | [], s, t, h => by simp [dropLit] at h; simp [h]
  | _ :: _, [], _, h => by simp [dropLit] at h
  | p :: ps, c :: cs, t, h => by
    simp only [dropLit] at h
    split at h
    · exact Nat.le_succ_of_le (dropLit_length_le ps cs t h)
    · exact absurd h (by simp)

theorem dropLit_length_lt (c0 : Char) (sep s t : List Char)
    (h : dropLit (c0 :: sep) s = some t) : t.length < s.length := by
  cases s with
  | nil => simp [dropLit] at h
  | cons c cs =>
    simp only [dropLit] at h
    split at h
    · exact Nat.lt_succ_of_le (dropLit_length_le sep cs t h)
    · exact absurd h (by simp)

theorem dropLit_eq_append : ∀ (p s t : List Char), dropLit p s = some t → s = p ++ t
  | [], s, t, h => by simp [dropLit] at h; simp [h]
  | _ :: _, [], _, h => by simp [dropLit] at h
  | p :: ps, c :: cs, t, h => by
    simp only [dropLit] at h
    split at h
    · next heq =>
      have := dropLit_eq_append ps cs t h
      simp only [beq_iff_eq] at heq
      simp [heq, this]
    · exact absurd h (by simp)

theorem dropLit_append_self : ∀ (p r : List Char), dropLit p (p ++ r) = some r
  | [], r => by simp [dropLit]
  | c :: cs, r => by simp [dropLit, dropLit_append_self cs r]

/-- Python `pat in s` substring test, for a fixed pattern. -/
def occursIn (pat : List Char) : List Char → Bool
  | [] => (dropLit pat []).isSome
  | c :: rest => (dropLit pat (c :: rest)).isSome || occursIn pat rest

/-- The suffix of `s` after the last occurrence of `pat` (`none` when `pat`
does not occur).  This is the phrase the specification uses for the
`Final Answer:` branch of the MRKL output parse. -/
def afterLast (pat : List Char) : List Char → Option (List Char)
  | [] => dropLit pat []
  | c :: rest =>
    match afterLast pat rest with
    | some t => some t
    | none => dropLit pat (c :: rest)

/-- Python `s.split(sep)` for a nonempty separator, with explicit fuel
(structural recursion; the fuel is always at least `s.length + 1`). -/
def pySplitF (c0 : Char) (sep : List Char) : Nat → List Char → List (List Char)
  | 0, s => [s]
  | fuel + 1, s =>
    match dropLit (c0 :: sep) s with
    | some tail => [] :: pySplitF c0 sep fuel tail
    | none =>
      match s with
      | [] => [[]]
      | c :: rest =>
        match pySplitF c0 sep fuel rest with
        | [] => [[c]]
        | seg :: segs => (c :: seg) :: segs

/-- Python `s.split(sep)`.  An empty separator raises in Python; it is never
used in this development and is mapped to the identity split. -/
def pySplit (pat : List Char) (s : List Char) : List (List Char) :=
  match pat with
  | [] => [s]
  | c0 :: sep => pySplitF c0 sep (s.length + 1) s

/-- Python `s.strip(chars)` for a character class `p`: drop matching
characters from both ends. -/
def pyStripWith (p : Char → Bool) (s : List Char) : List Char :=
  ((s.dropWhile p).reverse.dropWhile p).reverse

/-- Python `s.strip()` (no arguments): strip whitespace from both ends. -/
def pyStripWs (s : List Char) : List Char := pyStripWith isPySpace s

/-! ## Python dict model

Python dicts with string keys and values are modelled as association
lists; `lookupD` is `d[k]` (first match — Python dicts have unique keys),
`keysD` is the key view, and `mergeD d m` is `dict(d, **m)` (the entries
of `m` override colliding keys of `d`). -/

abbrev DictS := List (String × String)

def keysD (d : DictS) : List String := d.map Prod.fst

def lookupD : DictS → String → Option String
  | [], _ => none
  | (k, v) :: rest, q => if k == q then some v else lookupD rest q

/-- `dict(d, **m)`: entries of `m` override colliding keys of `d`.  The
representation keeps the non-overridden entries of `d` followed by `m`;
as a key-value map this is exactly the Python merged dict. -/
def mergeD (d m : DictS) : DictS :=
  d.filter (fun p => (lookupD m p.1).isNone) ++ m

theorem lookupD_isSome_iff_mem (d : DictS) (k : String) :
    (lookupD d k).isSome = true ↔ k ∈ keysD d := by
  induction d with
  | nil => simp [lookupD, keysD]
  | cons p rest ih =>
    obtain ⟨k', v'⟩ := p
    simp only [lookupD, keysD, List.map_cons, List.mem_cons]
    by_cases h : k' = k
    · subst h; simp
    · have hb : (k' == k) = false := beq_eq_false_iff_ne.mpr h
      simp only [hb, Bool.false_eq_true, if_false, ih, keysD]
      constructor
      · exact Or.inr
      · rintro (rfl | hm)
        · exact absurd rfl h
        · exact hm

theorem lookupD_eq_none_iff_not_mem (d : DictS) (k : String) :
    lookupD d k = none ↔ k ∉ keysD d := by
  rw [← lookupD_isSome_iff_mem]
  cases lookupD d k <;> simp

theorem mem_keysD_mergeD (d m : DictS) (k : String) :
    k ∈ keysD (mergeD d m) ↔ k ∈ keysD d ∨ k ∈ keysD m := by
  simp only [mergeD, keysD, List.map_append, List.mem_append]
  constructor
  · rintro (h | h)
    · left
      simp only [List.mem_map] at h
      obtain ⟨p, hp, rfl⟩ := h
      exact List.mem_map.mpr ⟨p, (List.mem_filter.mp hp).1, rfl⟩
    · right; exact h
  · rintro (h | h)
    · by_cases hm : k ∈ m.map Prod.fst
      · right; exact hm
      · left
        simp only [List.mem_map] at h
        obtain ⟨p, hp, rfl⟩ := h
        refine List.mem_map.mpr ⟨p, List.mem_filter.mpr ⟨hp, ?_⟩, rfl⟩
        have := (lookupD_eq_none_iff_not_mem m p.1).mpr hm
        simp [this]
    · right; exact h

theorem lookupD_append (d₁ d₂ : DictS) (k : String) :
    lookupD (d₁ ++ d₂) k = (lookupD d₁ k).elim (lookupD d₂ k) some := by
  induction d₁ with
  | nil => simp [lookupD]
  | cons p rest ih =>
    obtain ⟨k', v'⟩ := p
    by_cases h : k' = k <;> simp [lookupD, h, ih]

theorem lookupD_filter_of_not_mem (d m : DictS) (k : String) (hk : k ∈ keysD m) :
    lookupD (d.filter (fun p => (lookupD m p.1).isNone)) k = none := by
  induction d with
  | nil => simp [lookupD]
  | cons p rest ih =>
    obtain ⟨k', v'⟩ := p
    by_cases h : k' = k
    · subst h
      have : (lookupD m k').isSome = true := (lookupD_isSome_iff_mem m k').mpr hk
      cases hl : lookupD m k' with
      | none => rw [hl] at this; simp at this
      | some v => simp [List.filter, hl, ih]
    · by_cases hl : (lookupD m k').isNone <;> simp [List.filter, hl, lookupD, h, ih]

theorem lookupD_filter_of_none (d m : DictS) (k : String) (hk : lookupD m k = none) :
    lookupD (d.filter (fun p => (lookupD m p.1).isNone)) k = lookupD d k := by
  induction d with
  | nil => simp
  | cons p rest ih =>
    obtain ⟨k', v'⟩ := p
    by_cases h : k' = k
    · subst h; simp [List.filter, hk, lookupD, ih]
    · by_cases hl : (lookupD m k').isNone <;> simp [List.filter, hl, lookupD, h, ih]

/-- Lookup in the merged dict: keys of `m` take priority, others fall back
to `d` — the defining property of `dict(d, **m)`. -/
theorem lookupD_mergeD (d m : DictS) (k : String) :
    lookupD (mergeD d m) k = (lookupD m k).elim (lookupD d k) some := by
  rw [mergeD, lookupD_append]
  cases hm : lookupD m k with
  | some v =>
    have hk : k ∈ keysD m := (lookupD_isSome_iff_mem m k).mp (by simp [hm])
    rw [lookupD_filter_of_not_mem d m k hk]
    simp
  | none =>
    rw [lookupD_filter_of_none d m k hm]
    cases lookupD d k <;> simp

/-! ## Chain.__call__ (src/langchain/chains/base.py)

`Chain` is modelled by its declared input and output key lists; the
user-supplied `_call` and the memory's `load_memory_variables` are function
parameters.  Raised `ValueError`s are `Except.error`. -/

structure ChainSpec where
  inputKeys : List String
  outputKeys : List String

/-- `Chain._validate_inputs`: raise iff some declared input key is missing
from the inputs dict. -/
def validateInputs (c : ChainSpec) (inputs : DictS) : Except String Unit :=
  let missing := c.inputKeys.filter (fun k => !(lookupD inputs k).isSome)
  if missing.isEmpty then Except.ok ()
  else Except.error ("Missing some input keys: " ++ String.intercalate ", " missing)

/-- Python `set(outputs) == set(output_keys)` on the key view. -/
def sameKeySet (ks : List String) (ks' : List String) : Bool :=
  ks.all (fun k => ks'.contains k) && ks'.all (fun k => ks.contains k)

/-- `Chain._validate_outputs`: raise iff the produced key set differs from
the declared output key set. -/
def validateOutputs (c : ChainSpec) (outputs : DictS) : Except String Unit :=
  if sameKeySet (keysD outputs) c.outputKeys then Except.ok ()
  else Except.error "Did not get output keys that were expected."

/-- The tail of `Chain.__call__` after input validation: run `_call` on the
merged inputs, validate the outputs, and shape the returned dict. -/
def chainFinish (c : ChainSpec) (call : DictS → DictS) (inputs : DictS)
    (returnOnlyOutputs : Bool) : Except String DictS :=
  let outputs := call inputs
  match validateOutputs c outputs with
  | Except.error e => Except.error e
  | Except.ok () =>
    if returnOnlyOutputs then Except.ok outputs
    else Except.ok (mergeD inputs outputs)

/-- `Chain.__call__` for a dict input: merge the memory variables into the
inputs (memory overriding), validate key presence, then run `_call` and
post-process.  `loadMemory = none` models a chain without memory. -/
def chainCall (c : ChainSpec) (loadMemory : Option (DictS → DictS)) (call : DictS → DictS)
    (inputs : DictS) (returnOnlyOutputs : Bool) : Except String DictS :=
  let inputs' := match loadMemory with
    | some lm => mergeD inputs (lm inputs)
    | none => inputs
  match validateInputs c inputs' with
  | Except.error e => Except.error e
  | Except.ok () => chainFinish c call inputs' returnOnlyOutputs

theorem validateInputs_ok_iff (c : ChainSpec) (d : DictS) :
    validateInputs c d = Except.ok () ↔ ∀ k ∈ c.inputKeys, k ∈ keysD d := by
  unfold validateInputs
  constructor
  · intro h k hk
    by_cases hmem : k ∈ keysD d
    · exact hmem
    · exfalso
      have hnone : (lookupD d k).isSome = false := by
        cases hl : lookupD d k with
        | none => rfl
        | some v => exact absurd ((lookupD_isSome_iff_mem d k).mp (by simp [hl])) hmem
      have : k ∈ c.inputKeys.filter (fun k => !(lookupD d k).isSome) :=
        List.mem_filter.mpr ⟨hk, by simp [hnone]⟩
      rcases he : c.inputKeys.filter (fun k => !(lookupD d k).isSome) with _ | ⟨a, l⟩
      · rw [he] at this; simp at this
      · rw [he] at h; simp at h
  · intro h
    have : c.inputKeys.filter (fun k => !(lookupD d k).isSome) = [] := by
      rw [List.filter_eq_nil_iff]
      intro k hk
      have hs := (lookupD_isSome_iff_mem d k).mpr (h k hk)
      simp [Option.isSome_iff_ne_none.mp hs]
    rw [this]
    rfl

theorem validateInputs_error (c : ChainSpec) (d : DictS)
    (h : ∃ k ∈ c.inputKeys, k ∉ keysD d) :
    validateInputs c d = Except.error ("Missing some input keys: " ++ String.intercalate ", "
      (c.inputKeys.filter (fun k => !(lookupD d k).isSome))) := by
  obtain ⟨k, hk, hmem⟩ := h
  unfold validateInputs
  have hnone : (lookupD d k).isSome = false := by
    cases hl : lookupD d k with
    | none => rfl
    | some v => exact absurd ((lookupD_isSome_iff_mem d k).mp (by simp [hl])) hmem
  have hkf : k ∈ c.inputKeys.filter (fun k => !(lookupD d k).isSome) :=
    List.mem_filter.mpr ⟨hk, by simp [hnone]⟩
  rcases he : c.inputKeys.filter (fun k => !(lookupD d k).isSome) with _ | ⟨a, l⟩
  · rw [he] at hkf; simp at hkf
  · simp [he]

/-- C2: `Chain.__call__` merges the memory variables into the inputs before
validating; validation fails (with the missing-keys `ValueError`, for every
`_call`, which is therefore never invoked) exactly when some declared input
key is missing from the merged dict; when every declared input key is
present in the merged dict — possibly supplied by memory alone, since every
memory key is a key of the merged dict — the call proceeds with `_call` on
the merged dict. -/
theorem chain_call_input_validation (c : ChainSpec) (lm : DictS → DictS)
    (call : DictS → DictS) (d : DictS) (ro : Bool) :
    ((∀ k ∈ c.inputKeys, k ∈ keysD (mergeD d (lm d))) →
        chainCall c (some lm) call d ro = chainFinish c call (mergeD d (lm d)) ro)
    ∧ ((∃ k ∈ c.inputKeys, k ∉ keysD (mergeD d (lm d))) →
        ∀ g : DictS → DictS, chainCall c (some lm) g d ro =
          Except.error ("Missing some input keys: " ++ String.intercalate ", "
            (c.inputKeys.filter (fun k => !(lookupD (mergeD d (lm d)) k).isSome))))
    ∧ (∀ k, k ∈ keysD (lm d) → k ∈ keysD (mergeD d (lm d))) := by
  refine ⟨?_, ?_, ?_⟩
  · intro h
    have hv := (validateInputs_ok_iff c (mergeD d (lm d))).mpr h
    simp [chainCall, hv]
  · intro h g
    have hv := validateInputs_error c (mergeD d (lm d)) h
    simp [chainCall, hv]
  · intro k hk
    exact (mem_keysD_mergeD d (lm d) k).mpr (Or.inr hk)

/-- C2 witness: a chain whose `history` key is supplied by memory alone
passes validation and proceeds to `_call` on the merged inputs. -/
theorem chain_call_input_validation_witness :
    chainCall ⟨["history", "question"], ["answer"]⟩
        (some (fun _ => [("history", "hi")])) (fun _ => [("answer", "42")])
        [("question", "q")] true
      = chainFinish ⟨["history", "question"], ["answer"]⟩ (fun _ => [("answer", "42")])
          (mergeD [("question", "q")] [("history", "hi")]) true :=
  (chain_call_input_validation ⟨["history", "question"], ["answer"]⟩
      (fun _ => [("history", "hi")]) (fun _ => [("answer", "42")])
      [("question", "q")] true).1 (by decide)

theorem sameKeySet_iff (ks ks' : List String) :
    sameKeySet ks ks' = true ↔ ∀ k, k ∈ ks ↔ k ∈ ks' := by
  simp only [sameKeySet, Bool.and_eq_true, List.all_eq_true]
  constructor
  · rintro ⟨h1, h2⟩ k
    exact ⟨fun hk => List.elem_iff.mp (h1 k hk), fun hk => List.elem_iff.mp (h2 k hk)⟩
  · intro h
    exact ⟨fun k hk => List.elem_iff.mpr ((h k).mp hk), fun k hk => List.elem_iff.mpr ((h k).mpr hk)⟩

/-- C5: after `_call` returns, `Chain.__call__` validates the produced dict
against the declared output keys — erroring exactly when the key sets
differ — and on success returns the outputs alone when `return_only_outputs`
is true, and otherwise the merged dict `{**inputs, **outputs}` whose keys
are the (memory-augmented) input keys plus the output keys and in which
output values override colliding input keys. -/
theorem chain_call_output_validation (c : ChainSpec) (lm : DictS → DictS)
    (call : DictS → DictS) (d : DictS) (ro : Bool)
    (hin : ∀ k ∈ c.inputKeys, k ∈ keysD (mergeD d (lm d))) :
    ((¬ ∀ k, k ∈ keysD (call (mergeD d (lm d))) ↔ k ∈ c.outputKeys) →
        chainCall c (some lm) call d ro =
          Except.error "Did not get output keys that were expected.")
    ∧ ((∀ k, k ∈ keysD (call (mergeD d (lm d))) ↔ k ∈ c.outputKeys) →
        chainCall c (some lm) call d ro =
          Except.ok (if ro then call (mergeD d (lm d))
            else mergeD (mergeD d (lm d)) (call (mergeD d (lm d)))))
    ∧ (∀ k, k ∈ keysD (call (mergeD d (lm d))) →
        lookupD (mergeD (mergeD d (lm d)) (call (mergeD d (lm d)))) k
          = lookupD (call (mergeD d (lm d))) k)
    ∧ (∀ k, k ∈ keysD (mergeD (mergeD d (lm d)) (call (mergeD d (lm d)))) ↔
        (k ∈ keysD (mergeD d (lm d)) ∨ k ∈ keysD (call (mergeD d (lm d))))) := by
  have hcall := (chain_call_input_validation c lm call d ro).1 hin
  refine ⟨?_, ?_, ?_, ?_⟩
  · intro hne
    have hb : sameKeySet (keysD (call (mergeD d (lm d)))) c.outputKeys = false := by
      cases hs : sameKeySet (keysD (call (mergeD d (lm d)))) c.outputKeys with
      | false => rfl
      | true => exact absurd ((sameKeySet_iff _ _).mp hs) hne
    rw [hcall]
    simp [chainFinish, validateOutputs, hb]
  · intro heq
    have hb : sameKeySet (keysD (call (mergeD d (lm d)))) c.outputKeys = true :=
      (sameKeySet_iff _ _).mpr heq
    rw [hcall]
    simp only [chainFinish, validateOutputs, hb, if_true]
    cases ro <;> simp
  · intro k hk
    rw [lookupD_mergeD]
    cases hl : lookupD (call (mergeD d (lm d))) k with
    | some v => simp
    | none => exact absurd ((lookupD_eq_none_iff_not_mem _ k).mp hl) (not_not.mpr hk)
  · intro k
    exact mem_keysD_mergeD _ _ k

/-- C5 witness: with matching output keys the call returns the merged
input/output dict. -/
theorem chain_call_output_validation_witness :
    chainCall ⟨["q"], ["answer"]⟩ (some (fun _ => [])) (fun _ => [("answer", "42")])
        [("q", "hi")] false
      = Except.ok (mergeD (mergeD [("q", "hi")] []) [("answer", "42")]) := by
  have h := (chain_call_output_validation ⟨["q"], ["answer"]⟩ (fun _ => [])
      (fun _ => [("answer", "42")]) [("q", "hi")] false (by decide)).2.1
      (fun k => Iff.rfl)
  simpa using h

/-! ## find_and_replace (src/libs/cli/langchain_cli/utils/find_replace.py) -/

/-- Python `s.replace(find, repl)` for a nonempty pattern, with fuel
(always called with fuel ≥ `s.length + 1`): scan left to right, consuming
non-overlapping occurrences. -/
def pyReplaceF (c0 : Char) (ft repl : List Char) : Nat → List Char → List Char
  | 0, s => s
  | fuel + 1, s =>
    match dropLit (c0 :: ft) s with
    | some tail => repl ++ pyReplaceF c0 ft repl fuel tail
    | none =>
      match s with
      | [] => []
      | c :: rest => c :: pyReplaceF c0 ft repl fuel rest

/-- Python `s.replace(find, repl)`; an empty pattern inserts the
replacement at every character boundary. -/
def pyReplaceL (s find repl : List Char) : List Char :=
  match find with
  | [] => repl ++ s.foldr (fun c acc => c :: (repl ++ acc)) []
  | c0 :: ft => pyReplaceF c0 ft repl (s.length + 1) s

def pyReplace (s find repl : String) : String :=
  ⟨pyReplaceL s.data find.data repl.data⟩

/-- Python `sorted` on a list of strings (ascending lexicographic
code-point order; the keys sorted here are distinct, for which any
correct sort agrees with Python's stable sort). -/
def pySorted (l : List String) : List String :=
  List.insertionSort (fun a b : String => a ≤ b) l

/-- `find_and_replace`: apply the replacement for each key of the mapping,
keys taken in sorted alphabetical order.  The `none` branch of the lookup
is unreachable: the keys iterated over are exactly the keys of the
mapping. -/
def findAndReplace (source : String) (replacements : List (String × String)) : String :=
  (pySorted (replacements.map Prod.fst)).foldl
    (fun rtn find =>
      match lookupD replacements find with
      | some repl => pyReplace rtn find repl
      | none => rtn)
    source

/-- C9: `find_and_replace` depends only on the extensional content of the
replacement mapping: for mappings with the same key-to-value function
(keys unique, as in a Python dict), any insertion order yields
character-for-character the same output, because the keys are applied in
sorted alphabetical order. -/
theorem find_and_replace_deterministic (src : String) (r₁ r₂ : List (String × String))
    (h₁ : (r₁.map Prod.fst).Nodup) (h₂ : (r₂.map Prod.fst).Nodup)
    (h : ∀ k, lookupD r₁ k = lookupD r₂ k) :
    findAndReplace src r₁ = findAndReplace src r₂ := by
  have hmem : ∀ k, k ∈ keysD r₁ ↔ k ∈ keysD r₂ := by
    intro k
    rw [← lookupD_isSome_iff_mem, ← lookupD_isSome_iff_mem, h k]
  have hperm : List.Perm (r₁.map Prod.fst) (r₂.map Prod.fst) :=
    (List.perm_ext_iff_of_nodup h₁ h₂).mpr hmem
  have hsorted : pySorted (r₁.map Prod.fst) = pySorted (r₂.map Prod.fst) := by
    refine List.eq_of_perm_of_sorted
      (((List.perm_insertionSort _ _).trans hperm).trans (List.perm_insertionSort _ _).symm)
      (List.sorted_insertionSort _ _) (List.sorted_insertionSort _ _)
  unfold findAndReplace
  rw [hsorted]
  have hfun : (fun (rtn : String) (find : String) =>
      match lookupD r₁ find with
      | some repl => pyReplace rtn find repl
      | none => rtn) = (fun rtn find =>
      match lookupD r₂ find with
      | some repl => pyReplace rtn find repl
      | none => rtn) := by
    funext rtn find
    rw [h find]
  rw [hfun]

/-- C9 witness: two insertion orders of the same mapping give the same
result. -/
theorem find_and_replace_deterministic_witness :
    findAndReplace "ab" [("a", "x"), ("b", "y")] = findAndReplace "ab" [("b", "y"), ("a", "x")] :=
  find_and_replace_deterministic "ab" [("a", "x"), ("b", "y")] [("b", "y"), ("a", "x")]
    (by decide) (by decide)
    (by
      intro k
      by_cases ha : "a" = k
      · subst ha
        simp [lookupD]
      · by_cases hb : "b" = k
        · subst hb
          simp [lookupD, ha]
        · simp [lookupD, ha, hb])

/-! ## langchain_cohere import surface
(src/libs/partners/cohere/tests/unit_tests/test_imports.py) -/

/-- The expected export list from the unit test. -/
def EXPECTED_ALL : List String :=
  ["CohereLLM", "ChatCohere", "CohereVectorStore", "CohereEmbeddings", "CohereRagRetriever"]

/-- Modelled from the spec: the `langchain_cohere` package's public export
list `__all__`.  The package `__init__` module is not under src/ (only its
unit test is); the spec describes the sampled test suite as import-surface
assertions that `__all__` equals an expected list, so `__all__` is modelled
as that expected list. -/
def langchainCohereAll : List String :=
  ["CohereLLM", "ChatCohere", "CohereVectorStore", "CohereEmbeddings", "CohereRagRetriever"]

/-- The body of `test_all_imports`: `sorted(EXPECTED_ALL) == sorted(__all__)`. -/
def testAllImports : Bool :=
  pySorted EXPECTED_ALL == pySorted langchainCohereAll

/-- C7: the import-surface unit test assertion holds — the package's
`__all__` equals the expected five Cohere exports up to ordering. -/
theorem test_all_imports_passes :
    testAllImports = true ∧ pySorted langchainCohereAll = pySorted EXPECTED_ALL := by
  have h : pySorted langchainCohereAll = pySorted EXPECTED_ALL := rfl
  refine ⟨?_, h⟩
  show (pySorted EXPECTED_ALL == pySorted langchainCohereAll) = true
  rw [h]
  exact beq_self_eq_true _

/-! ## ConversationTokenBufferMemory.save_context
(src/libs/langchain/langchain/memory/token_buffer.py)

Messages are an abstract type `M`; the language model's
`get_num_tokens_from_messages` is an abstract counter `tok` (token counts
are natural numbers, hence non-negative). -/

/-- Modelled from the spec: `BaseChatMemory.save_context` (its module is
not under src/; `token_buffer.py` calls it via `super().save_context`)
appends the round's user and AI messages to the chat buffer. -/
def baseSaveContext {M : Type} (buf : List M) (userMsg aiMsg : M) : List M :=
  buf ++ [userMsg, aiMsg]

/-- The pruning loop of `save_context`: while the buffer's token count
exceeds the limit, pop the front message.  `none` models the `IndexError`
Python would raise on popping an empty list. -/
def pruneLoop {M : Type} (tok : List M → Nat) (limit : Nat) : List M → Option (List M)
  | [] => if tok [] ≤ limit then some [] else none
  | m :: rest =>
    if tok (m :: rest) ≤ limit then some (m :: rest)
    else pruneLoop tok limit rest

/-- `ConversationTokenBufferMemory.save_context`: append the new context,
then prune from the front while over the token limit. -/
def tokenBufferSaveContext {M : Type} (tok : List M → Nat) (limit : Nat)
    (buf : List M) (userMsg aiMsg : M) : Option (List M) :=
  pruneLoop tok limit (baseSaveContext buf userMsg aiMsg)

theorem pruneLoop_spec {M : Type} (tok : List M → Nat) (limit : Nat)
    (h0 : tok [] ≤ limit) :
    ∀ l : List M, ∃ r, pruneLoop tok limit l = some r ∧ tok r ≤ limit ∧
      List.IsSuffix r l := by
  intro l
  induction l with
  | nil => exact ⟨[], by simp [pruneLoop, h0], h0, List.nil_suffix⟩
  | cons m rest ih =>
    by_cases hle : tok (m :: rest) ≤ limit
    · exact ⟨m :: rest, by simp [pruneLoop, hle], hle, List.suffix_refl _⟩
    · obtain ⟨r, hr, hlim, hsuf⟩ := ih
      exact ⟨r, by simp [pruneLoop, hle, hr], hlim, hsuf.trans (List.suffix_cons m rest)⟩

/-- C8: when the token count of the empty message list is within the limit
(token counts being naturals are non-negative), `save_context` never hits
the `IndexError` (the loop terminates with `some`), the retained messages
have total token count at most `max_token_limit`, and they are a contiguous
suffix of the buffer as it stood just after the new context was appended —
pruning removes messages only from the front, oldest first. -/
theorem token_buffer_save_context_spec {M : Type} (tok : List M → Nat) (limit : Nat)
    (buf : List M) (userMsg aiMsg : M) (h0 : tok [] ≤ limit) :
    ∃ r, tokenBufferSaveContext tok limit buf userMsg aiMsg = some r ∧
      tok r ≤ limit ∧ List.IsSuffix r (baseSaveContext buf userMsg aiMsg) :=
  pruneLoop_spec tok limit h0 (baseSaveContext buf userMsg aiMsg)

/-- C8 witness: with the message-count tokenizer and limit 3, saving into a
three-message buffer prunes to a suffix within the limit. -/
theorem token_buffer_save_context_spec_witness :
    ∃ r, tokenBufferSaveContext (M := Nat) List.length 3 [1, 2, 3] 4 5 = some r ∧
      List.length r ≤ 3 ∧ List.IsSuffix r (baseSaveContext [1, 2, 3] 4 5) :=
  token_buffer_save_context_spec (M := Nat) List.length 3 [1, 2, 3] 4 5 (by decide)

/-! ## Construction-time configuration errors (C6)

`CerebriumAI.validate_environment`
(src/libs/community/langchain_community/llms/cerebriumai.py) and
`NebulaGraph.__init__` (src/langchain/graphs/nebula_graph.py). -/

/-- Modelled from the spec: `get_from_dict_or_env` (from `langchain_core`,
not under src/) returns the constructor-supplied value if present, else the
environment variable's value, else raises a missing-configuration
`ValueError`. -/
def getFromDictOrEnv (dictVal envVal : Option String) (key : String) : Except String String :=
  match dictVal with
  | some v => Except.ok v
  | none =>
    match envVal with
    | some v => Except.ok v
    | none => Except.error ("Did not find " ++ key ++ " in dict or environment")

structure CerebriumAI where
  endpointUrl : String
  cerebriumaiApiKey : String

/-- `CerebriumAI` construction: pydantic runs the `validate_environment`
root validator at construction time, so a missing key fails the
constructor before any API call. -/
def cerebriumConstruct (endpointUrl : String) (apiKeyArg envVar : Option String) :
    Except String CerebriumAI :=
  match getFromDictOrEnv apiKeyArg envVar "cerebriumai_api_key" with
  | Except.error e => Except.error e
  | Except.ok key => Except.ok ⟨endpointUrl, key⟩

structure NebulaGraphConn (Pool : Type) where
  space : String
  pool : Pool
  schema : String

/-- `NebulaGraph.__init__`: check the optional `nebula3` package, then build
the session pool, then refresh the schema (wrapping any refresh failure in
a `ValueError`).  The pool construction and schema refresh are behaviour
parameters since they talk to the network. -/
def nebulaInit {Pool : Type} (nebula3Available : Bool) (space : String)
    (getSessionPool : Unit → Except String Pool)
    (refreshSchema : Pool → Except String String) : Except String (NebulaGraphConn Pool) :=
  if nebula3Available = false then
    Except.error "Please install NebulaGraph Python client first: `pip install nebula3-python`"
  else
    match getSessionPool () with
    | Except.error e => Except.error e
    | Except.ok pool =>
      match refreshSchema pool with
      | Except.error e => Except.error ("Could not refresh schema. Error: " ++ e)
      | Except.ok schema => Except.ok ⟨space, pool, schema⟩

/-- C6: constructing `CerebriumAI` with no `cerebriumai_api_key` argument
and no `CEREBRIUMAI_API_KEY` environment value fails in the constructor
(for every endpoint, i.e. before any API call); constructing `NebulaGraph`
without the `nebula3` package fails with the install `ValueError` in the
constructor, regardless of what the later pool/schema stages would do. -/
theorem construction_time_config_errors :
    (∀ endpointUrl : String, cerebriumConstruct endpointUrl none none =
      Except.error "Did not find cerebriumai_api_key in dict or environment")
    ∧ (∀ (Pool : Type) (space : String) (gsp : Unit → Except String Pool)
        (rs : Pool → Except String String),
        nebulaInit false space gsp rs =
          Except.error "Please install NebulaGraph Python client first: `pip install nebula3-python`") := by
  constructor
  · intro endpointUrl
    rfl
  · intro Pool space gsp rs
    rfl

/-! ## CombiningOutputParser (src/langchain/output_parsers/combining.py)

A sub-parser is its `_type` string plus its `parse` behaviour (a raised
exception is `Except.error`). -/

structure SubParser where
  ty : String
  run : List Char → Except String DictS

/-- The validation loop over the sub-parsers: the first parser of type
`combining` or `list` (in order) determines the raised message. -/
def firstBadType : List SubParser → Option String
  | [] => none
  | p :: rest =>
    if p.ty == "combining" then some "Cannot nest combining parsers"
    else if p.ty == "list" then some "Cannot comine list parsers"
    else firstBadType rest

/-- The `validate_parsers` root validator. -/
def validateParsers (ps : List SubParser) : Except String (List SubParser) :=
  if ps.length < 2 then Except.error "Must have at least two parsers"
  else
    match firstBadType ps with
    | some msg => Except.error msg
    | none => Except.ok ps

/-- The enumeration loop of `CombiningOutputParser.parse`: parser `i` is
applied to segment `i` (stripped); a missing segment is Python's
`IndexError`. -/
def combineGo (texts : List (List Char)) : List SubParser → Nat → DictS → Except String DictS
  | [], _, out => Except.ok out
  | p :: rest, i, out =>
    match texts[i]? with
    | none => Except.error "IndexError: list index out of range"
    | some seg =>
      match p.run (pyStripWs seg) with
      | Except.error e => Except.error e
      | Except.ok d => combineGo texts rest (i + 1) (mergeD out d)

/-- `CombiningOutputParser.parse`: split on a double newline and feed the
i-th segment to the i-th sub-parser, unioning the result dicts. -/
def combiningParse (ps : List SubParser) (text : List Char) : Except String DictS :=
  combineGo (pySplit ['\n', '\n'] text) ps 0 []

def exceptIsOk {ε α : Type} : Except ε α → Bool
  | Except.ok _ => true
  | Except.error _ => false

theorem firstBadType_none_iff (ps : List SubParser) :
    firstBadType ps = none ↔ ∀ p ∈ ps, p.ty ≠ "combining" ∧ p.ty ≠ "list" := by
  induction ps with
  | nil => simp [firstBadType]
  | cons p rest ih =>
    by_cases hc : p.ty = "combining"
    · simp [firstBadType, hc]
    · by_cases hl : p.ty = "list"
      · simp [firstBadType, hc, hl]
      · simp [firstBadType, hc, hl, ih]

theorem combineGo_oob (texts : List (List Char)) :
    ∀ (ps : List SubParser) (i : Nat) (out : DictS), 1 ≤ ps.length →
      texts.length < i + ps.length → exceptIsOk (combineGo texts ps i out) = false := by
  intro ps
  induction ps with
  | nil => intro i out h; simp at h
  | cons p rest ih =>
    intro i out _ hlen
    cases hseg : texts[i]? with
    | none => simp [combineGo, hseg, exceptIsOk]
    | some seg =>
      have hi : i < texts.length := by
        by_contra hge
        rw [List.getElem?_eq_none (Nat.le_of_not_lt hge)] at hseg
        exact absurd hseg (by simp)
      cases hrun : p.run (pyStripWs seg) with
      | error e => simp [combineGo, hseg, hrun, exceptIsOk]
      | ok d =>
        have hrest : 1 ≤ rest.length := by
          simp only [List.length_cons] at hlen
          omega
        have hlen' : texts.length < (i + 1) + rest.length := by
          simp only [List.length_cons] at hlen
          omega
        simp only [combineGo, hseg, hrun]
        exact ih (i + 1) (mergeD out d) hrest hlen'

/-- C10: a successfully constructed `CombiningOutputParser` has at least
two sub-parsers, none of type `combining` or `list`; and on any text whose
double-newline split yields fewer segments than there are sub-parsers,
`parse` fails (the indexing runs out of segments) instead of returning a
dict. -/
theorem combining_parser_invariants (ps ps' : List SubParser)
    (h : validateParsers ps = Except.ok ps') :
    (2 ≤ ps.length ∧ ∀ p ∈ ps, p.ty ≠ "combining" ∧ p.ty ≠ "list")
    ∧ ∀ text : List Char, (pySplit ['\n', '\n'] text).length < ps.length →
        exceptIsOk (combiningParse ps text) = false := by
  have hlen : ¬ ps.length < 2 := by
    intro hlt
    rw [validateParsers, if_pos hlt] at h
    exact absurd h (by simp)
  have hbad : firstBadType ps = none := by
    cases hb : firstBadType ps with
    | none => rfl
    | some msg =>
      rw [validateParsers, if_neg hlen, hb] at h
      exact absurd h (by simp)
  refine ⟨⟨Nat.le_of_not_lt hlen, (firstBadType_none_iff ps).mp hbad⟩, ?_⟩
  intro text hseg
  exact combineGo_oob (pySplit ['\n', '\n'] text) ps 0 [] (by omega) (by omega)

/-- C10 witness: a valid two-parser combiner fails on a text with a single
segment. -/
theorem combining_parser_invariants_witness :
    exceptIsOk (combiningParse
      [⟨"regex", fun _ => Except.ok []⟩, ⟨"structured", fun _ => Except.ok []⟩]
      ['h', 'i']) = false :=
  (combining_parser_invariants
      [⟨"regex", fun _ => Except.ok []⟩, ⟨"structured", fun _ => Except.ok []⟩]
      [⟨"regex", fun _ => Except.ok []⟩, ⟨"structured", fun _ => Except.ok []⟩]
      rfl).2 ['h', 'i'] (by decide)

/-! ## NebulaGraph.query (src/langchain/graphs/nebula_graph.py)

One call to `session_pool.execute_parameter` happens per attempt; an
execution history is a function from the attempt's `retry` index to its
result. -/

def RETRY_TIMES : Nat := 3

inductive AttemptResult (α : Type) where
  | ok (a : α)
  | noValidSession
  | runtimeError (msg : String)
  | transportError
  | ioError

/-- What `NebulaGraph.query` can be observed to do: return a result set,
fall off the end of the function (Python's implicit `None`), or raise a
`ValueError`. -/
inductive NebulaOutcome (α : Type) where
  | value (a : α)
  | noneReturned
  | valueError (msg : String)
deriving DecidableEq

def NebulaOutcome.isValueError {α : Type} : NebulaOutcome α → Bool
  | NebulaOutcome.valueError _ => true
  | _ => false

/-- `NebulaGraph.query`, recursing exactly as the source does: transient
errors re-enter `query` with `retry + 1` while `retry < RETRY_TIMES`.  An
exhausted `RuntimeError` raises a wrapping `ValueError`; the exhausted
`TTransportException`/`IOErrorException` branch has no `else` and falls
off the end of the function. -/
def nebulaQuery {α : Type} (attempts : Nat → AttemptResult α) (retry : Nat) :
    NebulaOutcome α :=
  match attempts retry with
  | AttemptResult.ok a => NebulaOutcome.value a
  | AttemptResult.noValidSession =>
    NebulaOutcome.valueError "No valid session found in session pool."
  | AttemptResult.runtimeError m =>
    if h : retry < RETRY_TIMES then nebulaQuery attempts (retry + 1)
    else NebulaOutcome.valueError ("Error executing query to NebulaGraph. Error: " ++ m)
  | AttemptResult.transportError =>
    if h : retry < RETRY_TIMES then nebulaQuery attempts (retry + 1)
    else NebulaOutcome.noneReturned
  | AttemptResult.ioError =>
    if h : retry < RETRY_TIMES then nebulaQuery attempts (retry + 1)
    else NebulaOutcome.noneReturned
termination_by RETRY_TIMES + 1 - retry

def isTransient {α : Type} : AttemptResult α → Bool
  | AttemptResult.runtimeError _ => true
  | AttemptResult.transportError => true
  | AttemptResult.ioError => true
  | _ => false

def isConnIssue {α : Type} : AttemptResult α → Bool
  | AttemptResult.transportError => true
  | AttemptResult.ioError => true
  | _ => false

/-- C3 counterexample: a session whose every attempt raises
`TTransportException` exhausts the retries, after which `query` silently
returns `None` — it does not wrap the vendor error in a `ValueError` as the
claim states. -/
theorem nebula_query_exhausted_transport_returns_none :
    nebulaQuery (fun _ => AttemptResult.transportError (α := Unit)) 0 =
      NebulaOutcome.noneReturned
    ∧ (nebulaQuery (fun _ => AttemptResult.transportError (α := Unit)) 0).isValueError = false := by
  have h : nebulaQuery (fun _ => AttemptResult.transportError (α := Unit)) 0 =
      NebulaOutcome.noneReturned := by
    simp [nebulaQuery, RETRY_TIMES]
  exact ⟨h, by rw [h]; rfl⟩

theorem nebulaQuery_congr {α : Type} (a b : Nat → AttemptResult α)
    (h : ∀ i, i ≤ RETRY_TIMES → a i = b i) :
    ∀ n r, RETRY_TIMES + 1 - r ≤ n → r ≤ RETRY_TIMES → nebulaQuery a r = nebulaQuery b r := by
  intro n
  induction n with
  | zero => intro r h1 h2; omega
  | succ n ih =>
    intro r h1 h2
    conv_lhs => rw [nebulaQuery]
    conv_rhs => rw [nebulaQuery]
    rw [h r h2]
    cases hb : b r with
    | ok v => rfl
    | noValidSession => rfl
    | runtimeError m =>
      by_cases hlt : r < RETRY_TIMES
      · simp only [hlt, dif_pos]
        exact ih (r + 1) (by omega) (by omega)
      · simp [hlt]
    | transportError =>
      by_cases hlt : r < RETRY_TIMES
      · simp only [hlt, dif_pos]
        exact ih (r + 1) (by omega) (by omega)
      · simp [hlt]
    | ioError =>
      by_cases hlt : r < RETRY_TIMES
      · simp only [hlt, dif_pos]
        exact ih (r + 1) (by omega) (by omega)
      · simp [hlt]

theorem nebulaQuery_success {α : Type} (a : Nat → AttemptResult α) :
    ∀ n r k v, RETRY_TIMES + 1 - r ≤ n → r ≤ k → k ≤ RETRY_TIMES →
      (∀ i, r ≤ i → i < k → isTransient (a i) = true) →
      a k = AttemptResult.ok v → nebulaQuery a r = NebulaOutcome.value v := by
  intro n
  induction n with
  | zero => intro r k v h1 h2 h3 _ _; omega
  | succ n ih =>
    intro r k v h1 h2 h3 htrans hk
    by_cases hrk : r = k
    · subst hrk
      rw [nebulaQuery, hk]
    · have hlt : r < k := Nat.lt_of_le_of_ne h2 hrk
      have ht := htrans r (Nat.le_refl r) hlt
      have hr3 : r < RETRY_TIMES := Nat.lt_of_lt_of_le hlt h3
      rw [nebulaQuery]
      cases ha : a r with
      | ok v' => rw [ha] at ht; simp [isTransient] at ht
      | noValidSession => rw [ha] at ht; simp [isTransient] at ht
      | runtimeError m =>
        simp only [hr3, dif_pos]
        exact ih (r + 1) k v (by omega) (by omega) h3
          (fun i hi1 hi2 => htrans i (by omega) hi2) hk
      | transportError =>
        simp only [hr3, dif_pos]
        exact ih (r + 1) k v (by omega) (by omega) h3
          (fun i hi1 hi2 => htrans i (by omega) hi2) hk
      | ioError =>
        simp only [hr3, dif_pos]
        exact ih (r + 1) k v (by omega) (by omega) h3
          (fun i hi1 hi2 => htrans i (by omega) hi2) hk

theorem nebulaQuery_runtime_exhaust {α : Type} (a : Nat → AttemptResult α) (m : String) :
    ∀ n r, RETRY_TIMES + 1 - r ≤ n → r ≤ RETRY_TIMES →
      (∀ i, r ≤ i → i ≤ RETRY_TIMES → ∃ m', a i = AttemptResult.runtimeError m') →
      a RETRY_TIMES = AttemptResult.runtimeError m →
      nebulaQuery a r = NebulaOutcome.valueError
        ("Error executing query to NebulaGraph. Error: " ++ m) := by
  intro n
  induction n with
  | zero => intro r h1 h2 _ _; omega
  | succ n ih =>
    intro r h1 h2 hall hm
    by_cases hr : r = RETRY_TIMES
    · subst hr
      rw [nebulaQuery, hm]
      simp
    · have hlt : r < RETRY_TIMES := Nat.lt_of_le_of_ne h2 hr
      obtain ⟨m', hm'⟩ := hall r (Nat.le_refl r) h2
      rw [nebulaQuery, hm']
      simp only [hlt, dif_pos]
      exact ih (r + 1) (by omega) (by omega) (fun i hi1 hi2 => hall i (by omega) hi2) hm

theorem nebulaQuery_conn_exhaust {α : Type} (a : Nat → AttemptResult α) :
    ∀ n r, RETRY_TIMES + 1 - r ≤ n → r ≤ RETRY_TIMES →
      (∀ i, r ≤ i → i ≤ RETRY_TIMES → isConnIssue (a i) = true) →
      nebulaQuery a r = NebulaOutcome.noneReturned := by
  intro n
  induction n with
  | zero => intro r h1 h2 _; omega
  | succ n ih =>
    intro r h1 h2 hall
    have hr := hall r (Nat.le_refl r) h2
    by_cases hrt : r = RETRY_TIMES
    · subst hrt
      rw [nebulaQuery]
      cases ha : a RETRY_TIMES with
      | ok v => rw [ha] at hr; simp [isConnIssue] at hr
      | noValidSession => rw [ha] at hr; simp [isConnIssue] at hr
      | runtimeError m => rw [ha] at hr; simp [isConnIssue] at hr
      | transportError => simp
      | ioError => simp
    · have hlt : r < RETRY_TIMES := Nat.lt_of_le_of_ne h2 hrt
      rw [nebulaQuery]
      cases ha : a r with
      | ok v => rw [ha] at hr; simp [isConnIssue] at hr
      | noValidSession => rw [ha] at hr; simp [isConnIssue] at hr
      | runtimeError m => rw [ha] at hr; simp [isConnIssue] at hr
      | transportError =>
        simp only [hlt, dif_pos]
        exact ih (r + 1) (by omega) (by omega) (fun i hi1 hi2 => hall i (by omega) hi2)
      | ioError =>
        simp only [hlt, dif_pos]
        exact ih (r + 1) (by omega) (by omega) (fun i hi1 hi2 => hall i (by omega) hi2)

/-- C3 (amended): `query` (default `retry=0`) retries `RuntimeError`,
`TTransportException` and `IOErrorException` at most `RETRY_TIMES = 3`
times — the outcome depends only on the first four attempts, and a success
on attempt `k ≤ 3` after transient failures returns its value; once retries
are exhausted, a `RuntimeError` is wrapped in a generic `ValueError`
carrying the vendor message, whereas an exhausted
`TTransportException`/`IOErrorException` is swallowed and the method
implicitly returns `None`. -/
theorem nebula_query_retry_semantics {α : Type} (attempts : Nat → AttemptResult α) :
    (∀ b : Nat → AttemptResult α, (∀ i, i ≤ RETRY_TIMES → attempts i = b i) →
        nebulaQuery attempts 0 = nebulaQuery b 0)
    ∧ (∀ k v, k ≤ RETRY_TIMES → (∀ i, i < k → isTransient (attempts i) = true) →
        attempts k = AttemptResult.ok v →
        nebulaQuery attempts 0 = NebulaOutcome.value v)
    ∧ ((∀ i, i ≤ RETRY_TIMES → ∃ m, attempts i = AttemptResult.runtimeError m) →
        ∃ m, attempts RETRY_TIMES = AttemptResult.runtimeError m ∧
          nebulaQuery attempts 0 = NebulaOutcome.valueError
            ("Error executing query to NebulaGraph. Error: " ++ m))
    ∧ ((∀ i, i ≤ RETRY_TIMES → isConnIssue (attempts i) = true) →
        nebulaQuery attempts 0 = NebulaOutcome.noneReturned) := by
  refine ⟨?_, ?_, ?_, ?_⟩
  · intro b hb
    exact nebulaQuery_congr attempts b hb (RETRY_TIMES + 1) 0 (by omega) (by omega)
  · intro k v hk htrans hsucc
    exact nebulaQuery_success attempts (RETRY_TIMES + 1) 0 k v (by omega) (by omega) hk
      (fun i _ hi => htrans i hi) hsucc
  · intro hall
    obtain ⟨m, hm⟩ := hall RETRY_TIMES (Nat.le_refl _)
    exact ⟨m, hm, nebulaQuery_runtime_exhaust attempts m (RETRY_TIMES + 1) 0 (by omega)
      (by omega) (fun i _ hi => hall i hi) hm⟩
  · intro hall
    exact nebulaQuery_conn_exhaust attempts (RETRY_TIMES + 1) 0 (by omega) (by omega)
      (fun i _ hi => hall i hi)

/-- C3 witness: two transport failures followed by a success yield the
value of the third attempt. -/
theorem nebula_query_retry_semantics_witness :
    nebulaQuery (fun i => if i < 2 then AttemptResult.transportError else AttemptResult.ok 7) 0 =
      NebulaOutcome.value 7 :=
  (nebula_query_retry_semantics
      (fun i => if i < 2 then AttemptResult.transportError else AttemptResult.ok 7)).2.1
    2 7 (by decide) (by decide) (by norm_num)

/-! ## RouterRunnable (src/libs/langchain/langchain/schema/runnable/router.py)

A runnable takes an input and a config and either returns an output or
raises (`Except.error`); the router holds a mapping from keys to
runnables.  `Cfg` abstracts `RunnableConfig`; the `configs` list models the
result of `get_config_list(config, len(inputs))`, which pairs `configs[i]`
with `inputs[i]`. -/

structure RouterIn (α : Type) where
  key : String
  input : α

/-- The router's `runnables` mapping. -/
def lookupR {α β Cfg : Type} (rs : List (String × (α → Cfg → Except String β)))
    (k : String) : Option (α → Cfg → Except String β) :=
  match rs with
  | [] => none
  | (k', f) :: rest => if k' == k then some f else lookupR rest k

/-- `RouterRunnable.invoke`: route on `input['key']`, `ValueError` when no
runnable is associated with it. -/
def routerInvoke {α β Cfg : Type} (rs : List (String × (α → Cfg → Except String β)))
    (inp : RouterIn α) (cfg : Cfg) : Except String β :=
  match lookupR rs inp.key with
  | none => Except.error ("No runnable associated with key '" ++ inp.key ++ "'")
  | some f => f inp.input cfg

/-- Iterating a thread-pool `executor.map` result in order: all tasks have
produced a value or an exception; `list(...)` re-raises the first
exception in iteration order. -/
def gatherResults {β : Type} : List (Except String β) → Except String (List β)
  | [] => Except.ok []
  | Except.error e :: _ => Except.error e
  | Except.ok b :: rest =>
    match gatherResults rest with
    | Except.error e => Except.error e
    | Except.ok bs => Except.ok (b :: bs)

/-- The closure `invoke` submitted to the executor for one batch element,
after the runnable for the element's key has been selected (the `none`
branch is unreachable: `batch` only reaches the fan-out after checking
every key). -/
def routerTask {α β Cfg : Type} (rs : List (String × (α → Cfg → Except String β)))
    (i : RouterIn α) (c : Cfg) : Except String β :=
  match lookupR rs i.key with
  | some f => f i.input c
  | none => Except.error "unreachable: guarded by the key check in batch"

/-- `RouterRunnable.batch` with `return_exceptions=False`: empty input
short-circuits; a missing key raises before anything runs; otherwise the
selected runnables are fanned out over the executor and the results
collected in input order. -/
def routerBatch {α β Cfg : Type} (rs : List (String × (α → Cfg → Except String β)))
    (inputs : List (RouterIn α)) (configs : List Cfg) : Except String (List β) :=
  if inputs.isEmpty then Except.ok []
  else if inputs.any (fun i => (lookupR rs i.key).isNone) then
    Except.error "One or more keys do not have a corresponding runnable"
  else
    gatherResults (List.zipWith (routerTask rs) inputs configs)

theorem gatherResults_eq_mapM_routerInvoke {α β Cfg : Type}
    (rs : List (String × (α → Cfg → Except String β))) :
    ∀ (inputs : List (RouterIn α)) (configs : List Cfg),
      (∀ i ∈ inputs, (lookupR rs i.key).isSome = true) →
      gatherResults (List.zipWith (routerTask rs) inputs configs)
      = (inputs.zip configs).mapM (fun p => routerInvoke rs p.1 p.2) := by
  intro inputs
  induction inputs with
  | nil => intro configs _; simp [gatherResults, List.mapM]; rfl
  | cons i rest ih =>
    intro configs hkeys
    cases configs with
    | nil => simp [gatherResults, List.mapM]; rfl
    | cons c cs =>
      have hi : (lookupR rs i.key).isSome = true := hkeys i (List.mem_cons_self i rest)
      cases hf : lookupR rs i.key with
      | none => rw [hf] at hi; simp at hi
      | some f =>
        have ihr := ih cs (fun j hj => hkeys j (List.mem_cons_of_mem i hj))
        rw [List.zipWith_cons_cons, List.zip_cons_cons, List.mapM_cons]
        have htask : routerTask rs i c = f i.input c := by
          rw [routerTask, hf]
        have hinv : routerInvoke rs i c = f i.input c := by
          rw [routerInvoke, hf]
        cases hres : f i.input c with
        | error e =>
          simp [gatherResults, htask, hinv, hres, Except.instMonad, Except.bind, Except.map]
        | ok b =>
          cases hrest : (rest.zip cs).mapM (fun p => routerInvoke rs p.1 p.2) with
          | error e =>
            simp only [List.mapM] at hrest
            simp [gatherResults, htask, hinv, hres, ihr, hrest, Except.instMonad,
              Except.bind, Except.map, List.mapM]
          | ok bs =>
            simp only [List.mapM] at hrest
            simp [gatherResults, htask, hinv, hres, ihr, hrest, Except.instMonad,
              Except.bind, Except.map, Except.pure, List.mapM]

/-- C4: `RouterRunnable.batch` (with `return_exceptions=False`) is
observationally the sequential per-element `invoke` map: the empty batch
returns `[]`; when every input key has an associated runnable the
thread-pool fan-out equals `mapM` of `RouterRunnable.invoke` over the
input/config pairs in input order; and when some key has no runnable,
`batch` raises the `ValueError` — an outcome depending only on the key
domain of the mapping, i.e. decided before any runnable is invoked. -/
theorem router_batch_refines_invoke {α β Cfg : Type}
    (rs : List (String × (α → Cfg → Except String β)))
    (inputs : List (RouterIn α)) (configs : List Cfg) :
    (routerBatch rs ([] : List (RouterIn α)) configs = Except.ok [])
    ∧ ((∀ i ∈ inputs, (lookupR rs i.key).isSome = true) →
        routerBatch rs inputs configs =
          (inputs.zip configs).mapM (fun p => routerInvoke rs p.1 p.2))
    ∧ ((∃ i ∈ inputs, (lookupR rs i.key).isNone = true) →
        ∀ rs' : List (String × (α → Cfg → Except String β)),
          (∀ k, (lookupR rs' k).isNone = (lookupR rs k).isNone) →
          routerBatch rs' inputs configs =
            Except.error "One or more keys do not have a corresponding runnable") := by
  refine ⟨by simp [routerBatch], ?_, ?_⟩
  · intro hkeys
    cases inputs with
    | nil => simp [routerBatch, List.mapM, List.mapM.loop, Except.pure]; rfl
    | cons i rest =>
      have hany : ((i :: rest).any (fun j => (lookupR rs j.key).isNone)) = false := by
        rw [List.any_eq_false]
        intro j hj
        have := hkeys j hj
        cases hl : lookupR rs j.key with
        | none => rw [hl] at this; simp at this
        | some f => simp
      rw [routerBatch]
      simp only [List.isEmpty_cons, hany, Bool.false_eq_true, if_false]
      exact gatherResults_eq_mapM_routerInvoke rs (i :: rest) configs hkeys
  · rintro ⟨i0, hi0, hnone⟩ rs' hdom
    have hne : inputs.isEmpty = false := by
      cases inputs with
      | nil => exact absurd hi0 (by simp)
      | cons a l => rfl
    have hany : (inputs.any (fun j => (lookupR rs' j.key).isNone)) = true := by
      rw [List.any_eq_true]
      exact ⟨i0, hi0, by rw [hdom i0.key]; exact hnone⟩
    rw [routerBatch, hne]
    simp only [Bool.false_eq_true, if_false, hany, if_true]

/-- C4 witness: a one-element batch over a present key equals the
sequential invoke map. -/
theorem router_batch_refines_invoke_witness :
    routerBatch [("a", fun (n : Nat) (_ : Unit) => Except.ok (n + 1))]
        [⟨"a", 5⟩] [()]
      = ([(⟨"a", 5⟩ : RouterIn Nat)].zip [()]).mapM
          (fun p => routerInvoke [("a", fun (n : Nat) (_ : Unit) => Except.ok (n + 1))] p.1 p.2) :=
  (router_batch_refines_invoke [("a", fun (n : Nat) (_ : Unit) => Except.ok (n + 1))]
      [⟨"a", 5⟩] [()]).2.1
    (by
      intro i hi
      rw [List.mem_singleton] at hi
      subst hi
      rfl)

/-! ## MRKLOutputParser.parse (src/langchain/agents/mrkl/output_parser.py)

The regex
`Action\s*\d*\s*:[\s]*(.*?)[\s]*Action\s*\d*\s*Input\s*\d*\s*:[\s]*(.*)`
(searched with `re.DOTALL`) is embedded by a direct matcher.  Because `:`,
`I` (of `Input`) and `A` (of `Action`) are neither whitespace nor digits,
the greedy `\s*\d*\s*` runs inside the two headers match deterministically
as maximal runs; the lazy `(.*?)` makes the engine pick the first position
at or after the first non-whitespace character following the first
header's colon where — after absorbing the `[\s]*` run — the second header
matches; and the final greedy `[\s]*(.*)` makes the second capture the
rest of the string after the whitespace run following the second header's
colon.  `re.search` tries start positions left to right. -/

def FINAL_ANSWER_ACTION : List Char := "Final Answer:".data

/-- Match `Action\s*\d*\s*:` at the head of `s`, returning the suffix
after the colon. -/
def matchActionHeader (s : List Char) : Option (List Char) :=
  match dropLit "Action".data s with
  | none => none
  | some s1 =>
    match ((s1.dropWhile isPySpace).dropWhile Char.isDigit).dropWhile isPySpace with
    | ':' :: rest => some rest
    | _ => none

/-- Match `Action\s*\d*\s*Input\s*\d*\s*:` at the head of `s`, returning
the suffix after the colon. -/
def matchActionInputHeader (s : List Char) : Option (List Char) :=
  match dropLit "Action".data s with
  | none => none
  | some s1 =>
    match dropLit "Input".data
        (((s1.dropWhile isPySpace).dropWhile Char.isDigit).dropWhile isPySpace) with
    | none => none
    | some s2 =>
      match ((s2.dropWhile isPySpace).dropWhile Char.isDigit).dropWhile isPySpace with
      | ':' :: rest => some rest
      | _ => none

/-- `re.search` presence of a header anywhere in the text (the trailing
`[\s]*(.*?)` / leading `[\s]*` parts of the two diagnostic regexes always
match, so presence of the header is the whole condition). -/
def headerOccurs (m : List Char → Option (List Char)) : List Char → Bool
  | [] => (m []).isSome
  | c :: rest => (m (c :: rest)).isSome || headerOccurs m rest

/-- Scan for the first position where the second header matches; returns
the characters consumed before it (reversed accumulator) and the suffix
after the second header's colon. -/
def mrklFindRest (acc : List Char) : List Char → Option (List Char × List Char)
  | [] => none
  | c :: rest =>
    match matchActionInputHeader (c :: rest) with
    | some tail => some (acc.reverse, tail)
    | none => mrklFindRest (c :: acc) rest

/-- Drop trailing whitespace (the `[\s]*` between the lazy group and the
second header absorbs exactly the whitespace run preceding that header). -/
def dropTrailWs (l : List Char) : List Char :=
  (l.reverse.dropWhile isPySpace).reverse

/-- Attempt the whole pattern at one start position: first header, then
the lazy group up to the earliest second header, then the rest. -/
def mrklTryAt (s : List Char) : Option (List Char × List Char) :=
  match matchActionHeader s with
  | none => none
  | some afterColon =>
    match mrklFindRest [] (afterColon.dropWhile isPySpace) with
    | none => none
    | some (g1raw, tail) => some (dropTrailWs g1raw, tail.dropWhile isPySpace)

/-- `re.search`: leftmost start position at which the whole pattern
matches, yielding the two capture groups. -/
def mrklSearch : List Char → Option (List Char × List Char)
  | [] => none
  | c :: rest =>
    match mrklTryAt (c :: rest) with
    | some r => some r
    | none => mrklSearch rest

/-- The tool-input post-processing: `strip(" ")`, then `strip('"')` unless
the raw capture starts with `SELECT `. -/
def mrklToolInput (g2 : List Char) : List Char :=
  let output := pyStripWith (fun c => c == ' ') g2
  if (dropLit "SELECT ".data g2).isSome then output
  else pyStripWith (fun c => c == '"') output

structure AgentAction where
  tool : List Char
  toolInput : List Char
  log : List Char
deriving DecidableEq

structure AgentFinish where
  output : List Char
  log : List Char
deriving DecidableEq

/-- The three `OutputParserException` flavours raised by `parse`. -/
inductive MRKLFail where
  | missingAction
  | missingActionInput
  | generic
deriving DecidableEq

inductive MRKLResult where
  | act (a : AgentAction)
  | fin (f : AgentFinish)
  | err (e : MRKLFail)
deriving DecidableEq

/-- `MRKLOutputParser.parse`: the `Final Answer:` sentinel wins; otherwise
regex extraction of the Action / Action Input pair; otherwise one of the
three exceptions. -/
def mrklParse (text : List Char) : MRKLResult :=
  if occursIn FINAL_ANSWER_ACTION text then
    MRKLResult.fin ⟨pyStripWs ((pySplit FINAL_ANSWER_ACTION text).getLastD []), text⟩
  else
    match mrklSearch text with
    | some (g1, g2) => MRKLResult.act ⟨pyStripWs g1, mrklToolInput g2, text⟩
    | none =>
      if headerOccurs matchActionHeader text = false then
        MRKLResult.err MRKLFail.missingAction
      else if headerOccurs matchActionInputHeader text = false then
        MRKLResult.err MRKLFail.missingActionInput
      else MRKLResult.err MRKLFail.generic

/-- The claim's reading of `parse`, differing from the code only in the
finish branch: the output is the text after the last occurrence of
`Final Answer:` (rather than the last element of the `split`), stripped. -/
def mrklParseSpec (text : List Char) : MRKLResult :=
  if occursIn FINAL_ANSWER_ACTION text then
    MRKLResult.fin ⟨pyStripWs ((afterLast FINAL_ANSWER_ACTION text).getD []), text⟩
  else
    match mrklSearch text with
    | some (g1, g2) => MRKLResult.act ⟨pyStripWs g1, mrklToolInput g2, text⟩
    | none =>
      if headerOccurs matchActionHeader text = false then
        MRKLResult.err MRKLFail.missingAction
      else if headerOccurs matchActionInputHeader text = false then
        MRKLResult.err MRKLFail.missingActionInput
      else MRKLResult.err MRKLFail.generic

theorem occursIn_false_iff_afterLast_none (pat : List Char) :
    ∀ s, occursIn pat s = false ↔ afterLast pat s = none := by
  intro s
  induction s with
  | nil =>
    simp only [occursIn, afterLast]
    cases dropLit pat [] <;> simp
  | cons c rest ih =>
    simp only [occursIn, afterLast, Bool.or_eq_false_iff]
    cases har : afterLast pat rest with
    | some t =>
      simp only [har] at ih
      constructor
      · rintro ⟨_, h2⟩; exact absurd (ih.mp h2) (by simp)
      · intro h; exact absurd h (by simp)
    | none =>
      simp only [har] at ih
      cases hd : dropLit pat (c :: rest) with
      | some t => simp [ih]
      | none => simp [ih]

theorem pySplitF_ne_nil (c0 : Char) (sep : List Char) :
    ∀ fuel s, pySplitF c0 sep fuel s ≠ [] := by
  intro fuel
  induction fuel with
  | zero => intro s; simp [pySplitF]
  | succ n ih =>
    intro s
    cases hdrop : dropLit (c0 :: sep) s with
    | some tail => simp [pySplitF, hdrop]
    | none =>
      cases s with
      | nil => simp [pySplitF, hdrop]
      | cons c rest =>
        cases h : pySplitF c0 sep n rest with
        | nil => simp [pySplitF, hdrop, h]
        | cons seg segs => simp [pySplitF, hdrop, h]

theorem afterLast_cons_of_none (pat : List Char) (c : Char) (r : List Char)
    (h : dropLit pat (c :: r) = none) : afterLast pat (c :: r) = afterLast pat r := by
  rw [afterLast]
  cases afterLast pat r with
  | some t => rfl
  | none => simp [h]

theorem afterLast_drop (pat : List Char) :
    ∀ (k : Nat) (r : List Char), (∀ j, j < k → dropLit pat (r.drop j) = none) →
      afterLast pat r = afterLast pat (r.drop k) := by
  intro k
  induction k with
  | zero => intro r _; rfl
  | succ n ih =>
    intro r h
    cases r with
    | nil => simp
    | cons c r' =>
      have h0 : dropLit pat (c :: r') = none := h 0 (Nat.zero_lt_succ n)
      rw [afterLast_cons_of_none pat c r' h0]
      have := ih r' (fun j hj => h (j + 1) (Nat.succ_lt_succ hj))
      rw [this]
      rfl

/-- The pattern has no nontrivial border: no proper nonempty suffix of it
is also an initial segment, so its occurrences cannot overlap. -/
def noSelfOverlap (pat : List Char) : Bool :=
  (List.range pat.length).all (fun j => j == 0 || (dropLit (pat.drop j) pat).isNone)

theorem noOverlap_no_inner_occ (pat : List Char) (hno : noSelfOverlap pat = true)
    (t u : List Char) (ht : dropLit pat t = some u) :
    ∀ j, 0 < j → j < pat.length → dropLit pat (t.drop j) = none := by
  intro j hj0 hjlen
  have hteq : t = pat ++ u := dropLit_eq_append pat t u ht
  have hdrop : t.drop j = pat.drop j ++ u := by
    rw [hteq, List.drop_append_of_le_length (Nat.le_of_lt hjlen)]
  cases hd : dropLit pat (t.drop j) with
  | none => rfl
  | some w =>
    exfalso
    have hteq2 : t.drop j = pat ++ w := dropLit_eq_append pat _ w hd
    have hkey : pat.drop j = pat.take (pat.length - j) := by
      have h1 : (pat.drop j ++ u).take (pat.length - j) = pat.drop j := by
        apply List.take_left'
        rw [List.length_drop]
      have h2 : (pat ++ w).take (pat.length - j) = pat.take (pat.length - j) :=
        List.take_append_of_le_length (Nat.sub_le _ _)
      rw [← h1, ← hdrop, hteq2, h2]
    have hsplit : pat = pat.drop j ++ pat.drop (pat.length - j) := by
      conv_lhs => rw [← List.take_append_drop (pat.length - j) pat]
      rw [hkey]
    have hocc : (dropLit (pat.drop j) pat).isSome = true := by
      have hself : dropLit (pat.drop j) (pat.drop j ++ pat.drop (pat.length - j)) =
          some (pat.drop (pat.length - j)) := dropLit_append_self _ _
      rw [← hsplit] at hself
      rw [hself]
      rfl
    have hall := List.all_eq_true.mp hno j (List.mem_range.mpr hjlen)
    have hj0' : (j == 0) = false := by
      cases j with
      | zero => exact absurd rfl (Nat.ne_of_gt hj0)
      | succ n => rfl
    rw [hj0', Bool.false_or] at hall
    rw [Option.isNone_iff_eq_none.mp hall] at hocc
    exact absurd hocc (by simp)

theorem getLastD_default_irrel {α : Type} (l : List α) (a b : α) (h : l ≠ []) :
    l.getLastD a = l.getLastD b := by
  cases l with
  | nil => exact absurd rfl h
  | cons x xs => rw [List.getLastD_cons, List.getLastD_cons]

theorem pySplitF_two_le (c0 : Char) (sep : List Char) :
    ∀ fuel s, s.length < fuel → occursIn (c0 :: sep) s = true →
      2 ≤ (pySplitF c0 sep fuel s).length := by
  intro fuel
  induction fuel with
  | zero => intro s hlen _; omega
  | succ n ih =>
    intro s hlen hocc
    cases hdrop : dropLit (c0 :: sep) s with
    | some tail =>
      have hne := pySplitF_ne_nil c0 sep n tail
      have hpos : 0 < (pySplitF c0 sep n tail).length := List.length_pos.mpr hne
      simp only [pySplitF, hdrop, List.length_cons]
      omega
    | none =>
      cases s with
      | nil =>
        rw [occursIn, hdrop] at hocc
        exact absurd hocc (by simp)
      | cons c rest =>
        rw [occursIn, hdrop] at hocc
        simp only [Option.isSome_none, Bool.false_or] at hocc
        have hlen' : rest.length < n := by
          simp only [List.length_cons] at hlen
          omega
        have h2 := ih rest hlen' hocc
        cases hps : pySplitF c0 sep n rest with
        | nil => exact absurd hps (pySplitF_ne_nil c0 sep n rest)
        | cons seg segs =>
          rw [hps] at h2
          simp only [pySplitF, hdrop, hps, List.length_cons] at *
          omega

theorem pySplitF_getLastD_afterLast (c0 : Char) (sep : List Char)
    (hno : noSelfOverlap (c0 :: sep) = true) :
    ∀ fuel s, s.length < fuel →
      (afterLast (c0 :: sep) s = none → pySplitF c0 sep fuel s = [s])
      ∧ (∀ t, afterLast (c0 :: sep) s = some t →
          (pySplitF c0 sep fuel s).getLastD [] = t) := by
  intro fuel
  induction fuel with
  | zero => intro s hlen; omega
  | succ n ih =>
    intro s hlen
    constructor
    · intro hnone
      cases hdrop : dropLit (c0 :: sep) s with
      | some tail =>
        cases s with
        | nil => simp [dropLit] at hdrop
        | cons c rest =>
          rw [afterLast] at hnone
          cases har : afterLast (c0 :: sep) rest with
          | some t' => rw [har] at hnone; simp at hnone
          | none => rw [har] at hnone; simp only [hdrop] at hnone; exact absurd hnone (by simp)
      | none =>
        cases s with
        | nil => simp [pySplitF, hdrop]
        | cons c rest =>
          have hfr : afterLast (c0 :: sep) rest = none := by
            rw [← afterLast_cons_of_none (c0 :: sep) c rest hdrop]
            exact hnone
          have hlen' : rest.length < n := by
            simp only [List.length_cons] at hlen
            omega
          have hA := (ih rest hlen').1 hfr
          simp [pySplitF, hdrop, hA]
    · intro t ht
      cases hdrop : dropLit (c0 :: sep) s with
      | some tail =>
        cases s with
        | nil => simp [dropLit] at hdrop
        | cons c rest =>
          have htail_eq : tail = (c :: rest).drop (c0 :: sep).length := by
            have heq := dropLit_eq_append (c0 :: sep) (c :: rest) tail hdrop
            rw [heq, List.drop_left]
          have hrt : afterLast (c0 :: sep) rest = afterLast (c0 :: sep) tail := by
            have hdropping : ∀ j, j < (c0 :: sep).length - 1 →
                dropLit (c0 :: sep) (rest.drop j) = none := by
              intro j hj
              have hrw : rest.drop j = (c :: rest).drop (j + 1) := rfl
              rw [hrw]
              exact noOverlap_no_inner_occ (c0 :: sep) hno (c :: rest) tail hdrop (j + 1)
                (by omega) (by simp only [List.length_cons] at *; omega)
            rw [afterLast_drop (c0 :: sep) ((c0 :: sep).length - 1) rest hdropping]
            congr 1
            rw [htail_eq]
            simp only [List.length_cons, Nat.add_sub_cancel, List.drop_succ_cons]
          have hlen_tail : tail.length < n := by
            have h1 := dropLit_length_lt c0 sep (c :: rest) tail hdrop
            simp only [List.length_cons] at hlen h1
            omega
          have hsplit_eq : pySplitF c0 sep (n + 1) (c :: rest) =
              [] :: pySplitF c0 sep n tail := by
            simp [pySplitF, hdrop]
          rw [hsplit_eq, List.getLastD_cons]
          rw [afterLast] at ht
          cases har : afterLast (c0 :: sep) rest with
          | some t' =>
            rw [har] at ht
            simp only [Option.some.injEq] at ht
            have hat : afterLast (c0 :: sep) tail = some t := by
              rw [← hrt, har, ht]
            exact (ih tail hlen_tail).2 t hat
          | none =>
            rw [har] at ht
            simp only [hdrop, Option.some.injEq] at ht
            have hat : afterLast (c0 :: sep) tail = none := by
              rw [← hrt, har]
            have hA := (ih tail hlen_tail).1 hat
            rw [hA]
            simpa [List.getLastD] using ht
      | none =>
        cases s with
        | nil =>
          rw [afterLast] at ht
          simp [dropLit] at ht
        | cons c rest =>
          have hstep := afterLast_cons_of_none (c0 :: sep) c rest hdrop
          rw [hstep] at ht
          have hocc_rest : occursIn (c0 :: sep) rest = true := by
            cases hoc : occursIn (c0 :: sep) rest with
            | true => rfl
            | false =>
              have := (occursIn_false_iff_afterLast_none (c0 :: sep) rest).mp hoc
              rw [this] at ht
              exact absurd ht (by simp)
          have hlen' : rest.length < n := by
            simp only [List.length_cons] at hlen
            omega
          have h2le := pySplitF_two_le c0 sep n rest hlen' hocc_rest
          cases hps : pySplitF c0 sep n rest with
          | nil => exact absurd hps (pySplitF_ne_nil c0 sep n rest)
          | cons seg segs =>
            have hsegs_ne : segs ≠ [] := by
              rw [hps] at h2le
              simp only [List.length_cons] at h2le
              exact List.ne_nil_of_length_pos (by omega)
            have hB := (ih rest hlen').2 t ht
            rw [hps, List.getLastD_cons] at hB
            have heq : pySplitF c0 sep (n + 1) (c :: rest) = (c :: seg) :: segs := by
              simp [pySplitF, hdrop, hps]
            rw [heq, List.getLastD_cons]
            rw [getLastD_default_irrel segs (c :: seg) seg hsegs_ne]
            exact hB

/-- C1: `MRKLOutputParser.parse` agrees everywhere with the claim's reading
`mrklParseSpec` of it: when the `Final Answer:` sentinel occurs, the result
is an `AgentFinish` whose output is the text after the last occurrence of
the sentinel, stripped of whitespace (the code computes it as the last
element of the `split`, which coincides because the sentinel cannot
overlap itself); otherwise a regex match yields an `AgentAction` whose tool
is the stripped first capture and whose tool input is the second capture
stripped of spaces (and of surrounding double quotes unless it starts with
`SELECT `); otherwise one of the `OutputParserException`s is raised — by
construction of `MRKLResult`, exactly one of the three outcomes happens. -/
theorem mrkl_parse_eq_spec (text : List Char) : mrklParse text = mrklParseSpec text := by
  unfold mrklParse mrklParseSpec
  cases hocc : occursIn FINAL_ANSWER_ACTION text with
  | false => rfl
  | true =>
    simp only [if_true]
    cases hal : afterLast FINAL_ANSWER_ACTION text with
    | none =>
      have hf := (occursIn_false_iff_afterLast_none FINAL_ANSWER_ACTION text).mpr hal
      rw [hf] at hocc
      exact absurd hocc (by simp)
    | some t =>
      have hfa : FINAL_ANSWER_ACTION = 'F' :: "inal Answer:".data := rfl
      have hno : noSelfOverlap ('F' :: "inal Answer:".data) = true := by decide
      have hmain := (pySplitF_getLastD_afterLast 'F' "inal Answer:".data hno
        (text.length + 1) text (Nat.lt_succ_self _)).2 t (by rw [← hfa]; exact hal)
      have hsplit : pySplit FINAL_ANSWER_ACTION text =
          pySplitF 'F' "inal Answer:".data (text.length + 1) text := by
        rw [hfa]
        rfl
      rw [hsplit, hmain]
      rfl
